import Mathlib

/-
  Verification of the IRust line-editing and input-dispatch core.

  Shallow embedding of src/src/irust/events.rs and src/src/irust.rs.
  The TextBuffer, ScreenCursor, Racer, History and StringTools helpers live in
  crates of this repository that are not under src/; those are modelled from the
  spec (each such definition carries a doc comment saying so).  Everything else
  is translated from the Rust source.
-/

namespace IRustSpec

/-! ## TextBuffer -/

/-- Modelled from the spec: the TextBuffer (printer::buffer::Buffer, a crate of this
repository not under src/).  Per spec section 3 it owns an ordered sequence of
characters (newlines included) and an edit-position index pos with invariant
0 ≤ pos ≤ length. -/
structure Buffer where
  chars : List Char
  pos : Nat
  deriving Repr, DecidableEq

/-- Modelled from the spec: created empty at session start. -/
def Buffer.new : Buffer := ⟨[], 0⟩

/-- Modelled from the spec: insert(char) inserts at pos and advances pos by one. -/
def Buffer.insert (b : Buffer) (c : Char) : Buffer :=
  ⟨b.chars.insertIdx b.pos c, b.pos + 1⟩

/-- Modelled from the spec: insert_str(s) inserts a literal sequence at pos and
advances pos by the length of s. -/
def Buffer.insertStr (b : Buffer) (s : List Char) : Buffer :=
  ⟨b.chars.take b.pos ++ s ++ b.chars.drop b.pos, b.pos + s.length⟩

/-- Modelled from the spec: remove_current_char removes the character at pos
(forward delete); a no-op if there is no character at pos. -/
def Buffer.removeCurrentChar (b : Buffer) : Buffer :=
  ⟨b.chars.eraseIdx b.pos, b.pos⟩

/-- Modelled from the spec: move_forward adjusts pos by +1, clamped to bounds
(saturating move). -/
def Buffer.moveForward (b : Buffer) : Buffer :=
  if b.pos < b.chars.length then ⟨b.chars, b.pos + 1⟩ else b

/-- Modelled from the spec: move_backward adjusts pos by -1, clamped at 0. -/
def Buffer.moveBackward (b : Buffer) : Buffer :=
  ⟨b.chars, b.pos - 1⟩

/-- Modelled from the spec: lookup of the character at pos, none at the boundary. -/
def Buffer.currentChar (b : Buffer) : Option Char :=
  b.chars.get? b.pos

/-- Modelled from the spec: lookup of the character before pos, none at the start. -/
def Buffer.previousChar (b : Buffer) : Option Char :=
  if b.pos = 0 then none else b.chars.get? (b.pos - 1)

/-- Modelled from the spec: lookup of the character after pos, none at the boundary. -/
def Buffer.nextChar (b : Buffer) : Option Char :=
  b.chars.get? (b.pos + 1)

/-- Modelled from the spec: clear() resets to empty with pos = 0. -/
def Buffer.clear (_ : Buffer) : Buffer := ⟨[], 0⟩

/-- Modelled from the spec: goto_start resets the edit position to 0. -/
def Buffer.gotoStart (b : Buffer) : Buffer := ⟨b.chars, 0⟩

/-- Modelled from the spec: is_at_start predicate. -/
def Buffer.isAtStart (b : Buffer) : Bool := b.pos == 0

/-- Modelled from the spec: is_at_end predicate. -/
def Buffer.isAtEnd (b : Buffer) : Bool := b.pos == b.chars.length

/-- Modelled from the spec: is_empty predicate. -/
def Buffer.isEmpty (b : Buffer) : Bool := b.chars.isEmpty

/-- Modelled from the spec: is_at_string_line_start is true when pos sits at
column 0 of its logical line (start of buffer or right after a newline). -/
def Buffer.isAtStringLineStart (b : Buffer) : Bool :=
  b.pos == 0 || b.chars.get? (b.pos - 1) == some '\n'

/-- Modelled from the spec: to_string materializes the full content. -/
def Buffer.toStr (b : Buffer) : List Char := b.chars

/-- The spec invariant 0 ≤ pos ≤ length (the lower bound is inherent in Nat). -/
def Buffer.inv (b : Buffer) : Prop := b.pos ≤ b.chars.length

instance (b : Buffer) : Decidable b.inv := by unfold Buffer.inv; infer_instance

/-! ## String tools (crate::utils, not under src/) -/

/-- Modelled from the spec: the nesting-aware bracket scan behind
StringTools::unmatched_brackets (crate::utils, not under src/).  Open brackets
(, [, { are pushed on a stack and counted against their closers; a closer that
does not match the innermost open bracket, or a leftover open bracket, makes the
input unmatched. -/
def unmatchedBracketsGo : List Char → List Char → Bool
  | [], stack => !stack.isEmpty
  | c :: rest, stack =>
    if c = '(' || c = '[' || c = '\x7b' then unmatchedBracketsGo rest (c :: stack)
    else if c = ')' then
      match stack with
      | '(' :: s => unmatchedBracketsGo rest s
      | _ => true
    else if c = ']' then
      match stack with
      | '[' :: s => unmatchedBracketsGo rest s
      | _ => true
    else if c = '\x7d' then
      match stack with
      | '\x7b' :: s => unmatchedBracketsGo rest s
      | _ => true
    else unmatchedBracketsGo rest stack

/-- Modelled from the spec: StringTools::unmatched_brackets. -/
def unmatchedBrackets (s : List Char) : Bool := unmatchedBracketsGo s []

/-- Rust str::trim_end — removes trailing whitespace. -/
def rustTrimEnd (s : List Char) : List Char :=
  (s.reverse.dropWhile (fun c => c.isWhitespace)).reverse

/-- Rust str::trim_start — removes leading whitespace. -/
def rustTrimStart (s : List Char) : List Char :=
  s.dropWhile (fun c => c.isWhitespace)

/-- Rust str::trim — removes leading and trailing whitespace. -/
def rustTrim (s : List Char) : List Char := rustTrimEnd (rustTrimStart s)

/-- From src/src/irust/events.rs, IRust::incomplete_input: unmatched brackets, or
the right-trimmed content ends with one of the continuation characters. -/
def incompleteInput (buffer : List Char) : Bool :=
  unmatchedBrackets buffer ||
    (match (rustTrimEnd buffer).getLast? with
     | some c => c == ':' || c == '.' || c == '='
     | none => false)

/-- From src/src/irust/events.rs, IRust::input_is_cmd_or_shell. -/
def inputIsCmdOrShell (buffer : List Char) : Bool :=
  buffer.take 1 == [':'] || buffer.take 2 == [':', ':']

/-! ## ScreenCursor -/

/-- Modelled from the spec: the ScreenCursor of the printer crate (not under src/).
It tracks the visual column/row and the terminal dimensions. -/
structure Cursor where
  col : Nat
  row : Nat
  width : Nat
  height : Nat
  deriving Repr, DecidableEq

/-- Modelled from the spec: a bounded right move, wrapping to the next row at the
terminal width. -/
def Cursor.moveRight (c : Cursor) : Cursor :=
  if c.col + 1 < c.width then { c with col := c.col + 1 }
  else { c with col := 0, row := c.row + 1 }

/-- Modelled from the spec: the unbounded/tracking right move; the cursor may
scroll past the visible width (handled by the render layer). -/
def Cursor.moveRightUnbounded (c : Cursor) : Cursor :=
  { c with col := c.col + 1 }

/-- Modelled from the spec: a left move, wrapping to the end of the previous row
at column 0. -/
def Cursor.moveLeft (c : Cursor) : Cursor :=
  if c.col = 0 then { c with col := c.width - 1, row := c.row - 1 }
  else { c with col := c.col - 1 }

/-- Modelled from the spec: the derived at_line_start predicate. -/
def Cursor.isAtLineStart (c : Cursor) : Bool := c.col == 0

/-- Modelled from the spec: the derived at_line_end predicate. -/
def Cursor.isAtLineEnd (c : Cursor) : Bool := c.col + 1 == c.width

/-- Modelled from the spec: goto_start returns the cursor to the prompt start
column. -/
def Cursor.gotoStart (c : Cursor) : Cursor := { c with col := 0 }

/-- Modelled from the spec: dimensions updated on resize events. -/
def Cursor.updateDimensions (c : Cursor) (w h : Nat) : Cursor :=
  { c with width := w, height := h }

/-! ## Suggestion and history state, options, output model -/

/-- Modelled from the spec: SuggestionState of the racer module (not under src/):
an optional active inline suggestion and a lock flag suppressing re-queries
while a suggestion is displayed. -/
structure RacerState where
  activeSuggestion : Option (List Char)
  updateLock : Bool
  deriving Repr, DecidableEq

/-- Modelled from the spec: Racer::unlock_racer_update — any character insertion
or deletion invalidates (unlocks) the suggestion, clearing it and allowing the
next Tab to re-query fresh. -/
def RacerState.unlockRacerUpdate (_ : RacerState) : RacerState :=
  ⟨none, false⟩

/-- Modelled from the spec: the History collaborator state visible to this core —
recorded entries plus the navigation lock cancelled on every edit. -/
structure HistoryState where
  entries : List (List Char)
  locked : Bool
  deriving Repr, DecidableEq

/-- Modelled from the spec: History::unlock, called on every edit. -/
def HistoryState.unlock (h : HistoryState) : HistoryState :=
  { h with locked := false }

/-- Modelled from the spec: History::push records an entry. -/
def HistoryState.push (h : HistoryState) (entry : List Char) : HistoryState :=
  { h with entries := entry :: h.entries }

/-- Modelled from the spec: should_push_to_history — push only when the buffer is
non-empty and differs from the immediately preceding entry. -/
def shouldPushToHistory (h : HistoryState) (buffer : List Char) : Bool :=
  !buffer.isEmpty && h.entries.head? != some buffer

/-- Terminal colors, kept abstract; only the identities matter here. -/
inductive Color where
  | grey
  | custom (n : Nat)
  deriving Repr, DecidableEq

/-- The slice of Options this core reads. -/
structure Options where
  errColor : Color
  deriving Repr, DecidableEq

/-- An item of the printer queue (printer crate, shape per the spec's Renderer
interface): a colored string or a run of new lines. -/
inductive PrinterItem where
  | str (s : List Char) (color : Color)
  | newLine (n : Nat)
  deriving Repr, DecidableEq

/-- The render queue produced by an evaluation. -/
abbrev PrintQueue := List PrinterItem

/-- The outcome the external Evaluator returns for a submitted buffer
(spec section 6): a renderable output or a displayable error. -/
inductive EvalOutcome where
  | ok (q : PrintQueue)
  | err (msg : List Char)
  deriving Repr, DecidableEq

/-- From src/src/irust/events.rs (handle_enter error arm): the queue built from an
evaluator error — the message in the configured error color plus one new line. -/
def errorQueue (msg : List Char) (errColor : Color) : PrintQueue :=
  [PrinterItem.str msg errColor, PrinterItem.newLine 1]

/-- The queue handle_enter renders for a given evaluation outcome. -/
def renderedOutput (o : EvalOutcome) (errColor : Color) : PrintQueue :=
  match o with
  | .ok q => q
  | .err e => errorQueue e errColor

/-- Calls into external collaborators, recorded as an effect trace. -/
inductive Effect where
  | submit (source : List Char)
  | historyPush (entry : List Char)
  | completionQuery
  | updateInputPrompt
  | printPrompt
  | writeConfirm
  deriving Repr, DecidableEq

/-! ## Session state -/

/-- The session state of IRust (src/src/irust.rs) restricted to the fields the
dispatched handlers read or write; operationNumber models
global_variables.operation_number. -/
structure St where
  buffer : Buffer
  cursor : Cursor
  racer : Option RacerState
  history : HistoryState
  operationNumber : Nat
  options : Options
  deriving Repr, DecidableEq

def St.unlockHistory (st : St) : St :=
  { st with history := st.history.unlock }

def St.unlockRacer (st : St) : St :=
  { st with racer := st.racer.map RacerState.unlockRacerUpdate }

/-- The active suggestion visible in a session state. -/
def St.activeSuggestion (st : St) : Option (List Char) :=
  match st.racer with
  | some r => r.activeSuggestion
  | none => none

/-- The take() on racer.active_suggestion used by handle_right / handle_end_key /
remove_racer_sugesstion_and_reprint: returns the suggestion and clears it. -/
def St.takeSuggestion (st : St) : Option (List Char) × St :=
  match st.racer with
  | none => (none, st)
  | some r => (r.activeSuggestion, { st with racer := some { r with activeSuggestion := none } })

/-! ## Input events (crossterm model) -/

/-- The key codes the dispatcher in src/src/irust.rs distinguishes. -/
inductive KeyCode where
  | char (c : Char)
  | enter
  | tab
  | backTab
  | left
  | right
  | up
  | down
  | backspace
  | home
  | endKey
  | delete
  | other
  deriving Repr, DecidableEq

/-- Key modifiers; crossterm's NONE is ⟨false, false, false⟩, CONTROL is
⟨true, false, false⟩, ALT is ⟨false, true, false⟩, SHIFT is ⟨false, false, true⟩. -/
structure Modifiers where
  ctrl : Bool
  alt : Bool
  shift : Bool
  deriving Repr, DecidableEq

structure KeyEvent where
  code : KeyCode
  modifiers : Modifiers
  deriving Repr, DecidableEq

/-- The crossterm events the dispatcher matches on. -/
inductive Event where
  | key (k : KeyEvent)
  | mouse
  | resize (width : Nat) (height : Nat)
  deriving Repr, DecidableEq

/-! ## Handlers (src/src/irust/events.rs) -/

/-- IRust::handle_character: insert at pos, move the cursor right unbounded,
unlock history navigation and the racer query lock. -/
def handleCharacter (st : St) (c : Char) : St × List Effect :=
  let st := { st with buffer := st.buffer.insert c }
  let st := { st with cursor := st.cursor.moveRightUnbounded }
  let st := st.unlockHistory
  let st := st.unlockRacer
  (st, [])

/-- Replay of a character sequence through handle_character (the suggestion
acceptance path of handle_right and handle_end_key). -/
def runChars (st : St) (cs : List Char) : St × List Effect :=
  match cs with
  | [] => (st, [])
  | c :: rest =>
    let (st1, effs1) := handleCharacter st c
    let (st2, effs2) := runChars st1 rest
    (st2, effs1 ++ effs2)

/-- IRust::handle_enter.  parseOutcome is the outcome the external Evaluator
(self.parse(), outside src/) returns when the buffer is submitted. -/
def handleEnter (parseOutcome : EvalOutcome) (forceEval : Bool) (st : St) :
    St × List Effect :=
  let st := st.unlockHistory
  let buffer := st.buffer.toStr
  if !forceEval && !inputIsCmdOrShell buffer && incompleteInput buffer then
    let st := { st with buffer := st.buffer.insert '\n' }
    let st := { st with cursor := st.cursor.moveRight }
    (st, [])
  else
    let (st, pushEffs) :=
      if shouldPushToHistory st.history buffer
      then ({ st with history := st.history.push buffer }, [Effect.historyPush buffer])
      else (st, [])
    let output := renderedOutput parseOutcome st.options.errColor
    let st := { st with buffer := st.buffer.clear }
    let (st, outEffs) :=
      if !output.isEmpty then
        ({ st with operationNumber := st.operationNumber + 1 },
          [Effect.updateInputPrompt])
      else (st, [])
    (st, pushEffs ++ [Effect.submit buffer] ++ outEffs ++ [Effect.printPrompt])

/-- IRust::handle_alt_enter: always insert a literal newline. -/
def handleAltEnter (st : St) : St × List Effect :=
  let st := { st with buffer := st.buffer.insert '\n' }
  let st := { st with cursor := st.cursor.moveRight }
  (st, [])

/-- The literal tab expansion of handle_tab: three spaces and a tab. -/
def tabLiteral : List Char := [' ', ' ', ' ', '\t']

/-- IRust::handle_tab.  cycled is the suggestion the racer displays after
update_suggestions / cycle_suggestions Down (racer crate, outside src/). -/
def handleTab (cycled : Option (List Char)) (st : St) : St × List Effect :=
  if st.buffer.isAtStringLineStart then
    let st := { st with buffer := st.buffer.insertStr tabLiteral }
    let st := { st with cursor :=
      st.cursor.moveRightUnbounded.moveRightUnbounded.moveRightUnbounded.moveRightUnbounded }
    (st, [])
  else
    match st.racer with
    | none => (st, [])
    | some r =>
      ({ st with racer := some { r with updateLock := true, activeSuggestion := cycled } },
        [Effect.completionQuery])

/-- IRust::handle_back_tab.  cycled is the suggestion displayed after
update_suggestions / cycle_suggestions Up. -/
def handleBackTab (cycled : Option (List Char)) (st : St) : St × List Effect :=
  match st.racer with
  | none => (st, [])
  | some r =>
    ({ st with racer := some { r with updateLock := true, activeSuggestion := cycled } },
      [Effect.completionQuery])

/-- IRust::handle_right: accept an active suggestion by replaying its characters
through handle_character, else a bounded forward move. -/
def handleRight (st : St) : St × List Effect :=
  match st.takeSuggestion with
  | (some suggestion, st) => runChars st suggestion
  | (none, st) =>
    if !st.buffer.isAtEnd then
      ({ st with cursor := st.cursor.moveRight, buffer := st.buffer.moveForward }, [])
    else (st, [])

/-- IRust::remove_racer_sugesstion_and_reprint: drop any active suggestion
(the reprint is a render-only intent). -/
def removeRacerSuggestionAndReprint (st : St) : St :=
  (St.takeSuggestion st).2

/-- IRust::handle_left: clear any active suggestion, then a bounded backward
move. -/
def handleLeft (st : St) : St × List Effect :=
  let st := removeRacerSuggestionAndReprint st
  if !st.buffer.isAtStart && !st.buffer.isEmpty then
    ({ st with cursor := st.cursor.moveLeft, buffer := st.buffer.moveBackward }, [])
  else (st, [])

/-- IRust::handle_backspace: move backward then forward-delete the character now
under the cursor; a no-op at the buffer start. -/
def handleBackspace (st : St) : St × List Effect :=
  if !st.buffer.isAtStart then
    let st := { st with buffer := st.buffer.moveBackward }
    let st := { st with cursor := st.cursor.moveLeft }
    let st := { st with buffer := st.buffer.removeCurrentChar }
    (st.unlockHistory.unlockRacer, [])
  else (st, [])

/-- IRust::handle_del: forward-delete at pos when the buffer is non-empty. -/
def handleDel (st : St) : St × List Effect :=
  if !st.buffer.isEmpty then
    let st := { st with buffer := st.buffer.removeCurrentChar }
    (st.unlockHistory.unlockRacer, [])
  else (st, [])

/-- IRust::handle_ctrl_c: clear the buffer, unlock history and racer, return the
cursor to the prompt start and re-render. -/
def handleCtrlC (st : St) : St × List Effect :=
  let st := { st with buffer := st.buffer.clear }
  let st := st.unlockHistory.unlockRacer
  let st := { st with cursor := st.cursor.gotoStart }
  (st, [Effect.printPrompt])

/-- The private confirmation sub-loop of IRust::handle_ctrl_d: consume raw key
events until one resolves the question; none models the loop still blocking when
the supplied events run out. -/
def ctrlDConfirm : List Event → Option (Bool × List Effect)
  | [] => none
  | ev :: rest =>
    match ev with
    | Event.key ⟨KeyCode.char c, ⟨false, false, false⟩⟩ =>
      if c = 'y' || c = 'Y' then some (true, [])
      else some (false, [Effect.printPrompt])
    | Event.key ⟨KeyCode.char 'd', ⟨true, false, false⟩⟩ => some (true, [])
    | Event.key ⟨KeyCode.enter, _⟩ => some (true, [])
    | _ => ctrlDConfirm rest

/-- IRust::handle_ctrl_d.  The third component is the signal to the host loop:
some true terminates, some false continues, none models the handler still
blocked inside its sub-loop. -/
def handleCtrlD (pending : List Event) (st : St) : St × List Effect × Option Bool :=
  if st.buffer.isEmpty then
    match ctrlDConfirm pending with
    | some (answer, effs) => (st, Effect.writeConfirm :: effs, some answer)
    | none => (st, [Effect.writeConfirm], none)
  else (st, [], some false)

/-- IRust::handle_ctrl_l: clear the buffer, reset the edit position, clear the
screen and redraw the empty prompt. -/
def handleCtrlL (st : St) : St × List Effect :=
  let st := { st with buffer := st.buffer.clear }
  let st := { st with buffer := st.buffer.gotoStart }
  let st := { st with cursor := { st.cursor with col := 0, row := 0 } }
  (st, [Effect.printPrompt])

/-- IRust::handle_ctrl_z (unix branch): clear the screen, stop the process and on
resume redraw via handle_ctrl_l; the process signal leaves no state here. -/
def handleCtrlZ (st : St) : St × List Effect :=
  handleCtrlL st

/-- The loop of IRust::handle_home_key, fuelled.  Each productive iteration moves
the cursor one column left, so col + 1 fuel suffices; with exhausted fuel the
state is returned as is (the Rust loop would then never terminate, which the
lockstep cursor invariant prevents in reachable states). -/
def handleHomeAux : Nat → St → St × List Effect
  | 0, st => (st, [])
  | fuel + 1, st =>
    if !st.cursor.isAtLineStart then
      let (st1, effs1) := handleLeft st
      let (st2, effs2) := handleHomeAux fuel st1
      (st2, effs1 ++ effs2)
    else (st, [])

/-- IRust::handle_home_key: apply handle_left until the cursor reports at line
start. -/
def handleHome (st : St) : St × List Effect :=
  handleHomeAux (st.cursor.col + 1) st

/-- The first loop of IRust::handle_end_key, fuelled: move forward while the
buffer is non-empty and the cursor is not at line end. -/
def handleEndAux : Nat → St → St
  | 0, st => st
  | fuel + 1, st =>
    if !st.buffer.isEmpty && !st.cursor.isAtLineEnd then
      handleEndAux fuel
        { st with buffer := st.buffer.moveForward, cursor := st.cursor.moveRight }
    else st

/-- IRust::handle_end_key: move to the line end, then accept any active racer
suggestion exactly as handle_right does. -/
def handleEndKey (st : St) : St × List Effect :=
  let st := handleEndAux (st.cursor.width + 1) st
  match st.takeSuggestion with
  | (some suggestion, st) => runChars st suggestion
  | (none, st) => (st, [])

/-- The backward scan loop shared by the three branches of
IRust::handle_ctrl_left: step backward while the previous character satisfies p.
Fuelled with the edit position, which bounds the number of iterations exactly. -/
def scanBack (p : Char → Bool) : Nat → Buffer → Cursor → Buffer × Cursor
  | 0, b, cur => (b, cur)
  | fuel + 1, b, cur =>
    match b.previousChar with
    | some c => if p c then scanBack p fuel b.moveBackward cur.moveLeft else (b, cur)
    | none => (b, cur)

/-- The current-character forward scan loop of the alphanumeric and punctuation
branches of IRust::handle_ctrl_right, fuelled with length - pos. -/
def scanForward (p : Char → Bool) : Nat → Buffer → Cursor → Buffer × Cursor
  | 0, b, cur => (b, cur)
  | fuel + 1, b, cur =>
    match b.currentChar with
    | some c => if p c then scanForward p fuel b.moveForward cur.moveRight else (b, cur)
    | none => (b, cur)

/-- The next-character space loop of the space branch of
IRust::handle_ctrl_right, fuelled with length - pos. -/
def scanNextSpaces : Nat → Buffer → Cursor → Buffer × Cursor
  | 0, b, cur => (b, cur)
  | fuel + 1, b, cur =>
    if b.nextChar == some ' ' then scanNextSpaces fuel b.moveForward cur.moveRight
    else (b, cur)

/-- Rust char::is_alphanumeric, restricted to the ASCII fragment exercised here. -/
def rustIsAlphanumeric (c : Char) : Bool := c.isAlphanum

/-- IRust::handle_ctrl_left: one ordinary left step, then scan backward through
the run of the class (space, alphanumeric, other) of the character now at the
edit position. -/
def handleCtrlLeft (st : St) : St × List Effect :=
  let (st, effs) := handleLeft st
  match st.buffer.currentChar with
  | none => (st, effs)
  | some c =>
    if c = ' ' then
      let (b, cur) := scanBack (fun d => d == ' ') st.buffer.pos st.buffer st.cursor
      ({ st with buffer := b, cursor := cur }, effs)
    else if rustIsAlphanumeric c then
      let (b, cur) := scanBack (fun d => rustIsAlphanumeric d) st.buffer.pos st.buffer st.cursor
      ({ st with buffer := b, cursor := cur }, effs)
    else
      let (b, cur) := scanBack (fun d => !rustIsAlphanumeric d && d != ' ')
        st.buffer.pos st.buffer st.cursor
      ({ st with buffer := b, cursor := cur }, effs)

/-- IRust::handle_ctrl_right: one ordinary right step, then scan forward through
the run of the class of the character now at the edit position (the space branch
skips the space run and steps once more). -/
def handleCtrlRight (st : St) : St × List Effect :=
  let (st, effs) := handleRight st
  match st.buffer.currentChar with
  | none => (st, effs)
  | some c =>
    if c = ' ' then
      let (b, cur) := scanNextSpaces (st.buffer.chars.length - st.buffer.pos)
        st.buffer st.cursor
      ({ st with buffer := b.moveForward, cursor := cur.moveRight }, effs)
    else if rustIsAlphanumeric c then
      let (b, cur) := scanForward (fun d => rustIsAlphanumeric d)
        (st.buffer.chars.length - st.buffer.pos) st.buffer st.cursor
      ({ st with buffer := b, cursor := cur }, effs)
    else
      let (b, cur) := scanForward (fun d => !rustIsAlphanumeric d && d != ' ')
        (st.buffer.chars.length - st.buffer.pos) st.buffer st.cursor
      ({ st with buffer := b, cursor := cur }, effs)

/-- Modelled from the spec: the history recall handlers (handle_up, handle_down,
handle_ctrl_r live in a module not under src/).  The History collaborator owns
navigation; a successful recall replaces the composed buffer with the recalled
entry, cursor at its end; with nothing to recall the state is unchanged. -/
def handleRecall (recalled : Option (List Char)) (st : St) : St × List Effect :=
  match recalled with
  | some entry => ({ st with buffer := ⟨entry, entry.length⟩ }, [])
  | none => (st, [])

/-! ## Dispatcher (src/src/irust.rs, handle_input_event) -/

/-- Per-event inputs from the external collaborators: the Evaluator outcome for a
submission, the suggestion the racer cycles to, the entry History recalls, and
the raw events the Ctrl+D confirmation sub-loop would read. -/
structure Oracle where
  parseOutcome : EvalOutcome
  cycled : Option (List Char)
  recalled : Option (List Char)
  pending : List Event
  deriving Repr, DecidableEq

/-- Wrap a handler result with the continue signal of the host loop. -/
def contSignal : St × List Effect → St × List Effect × Option Bool :=
  fun r => (r.1, r.2, some false)

/-- IRust::handle_input_event: one dispatched input event.  The match arms appear
in source order; the signal is some true to exit, some false to continue, none
when the Ctrl+D sub-loop stays blocked. -/
def handleInputEvent (o : Oracle) (ev : Event) (st : St) :
    St × List Effect × Option Bool :=
  match ev with
  | Event.mouse => (st, [], some false)
  | Event.resize w h =>
    let st := { st with cursor := st.cursor.updateDimensions w h }
    let (st, effs) := handleCtrlC st
    (st, effs, some false)
  | Event.key ⟨code, mods⟩ =>
    match code, mods with
    | KeyCode.char c, ⟨false, false, false⟩ => contSignal (handleCharacter st c)
    | KeyCode.char c, ⟨false, false, true⟩ => contSignal (handleCharacter st c)
    | KeyCode.char 'e', ⟨true, false, false⟩ =>
      contSignal (handleEnter o.parseOutcome true st)
    | KeyCode.enter, ⟨false, true, false⟩ => contSignal (handleAltEnter st)
    | KeyCode.enter, _ => contSignal (handleEnter o.parseOutcome false st)
    | KeyCode.tab, _ => contSignal (handleTab o.cycled st)
    | KeyCode.backTab, _ => contSignal (handleBackTab o.cycled st)
    | KeyCode.left, ⟨false, false, false⟩ => contSignal (handleLeft st)
    | KeyCode.right, ⟨false, false, false⟩ => contSignal (handleRight st)
    | KeyCode.up, _ => contSignal (handleRecall o.recalled st)
    | KeyCode.down, _ => contSignal (handleRecall o.recalled st)
    | KeyCode.backspace, _ => contSignal (handleBackspace st)
    | KeyCode.char 'c', ⟨true, false, false⟩ => contSignal (handleCtrlC st)
    | KeyCode.char 'd', ⟨true, false, false⟩ => handleCtrlD o.pending st
    | KeyCode.char 'z', ⟨true, false, false⟩ => contSignal (handleCtrlZ st)
    | KeyCode.char 'l', ⟨true, false, false⟩ => contSignal (handleCtrlL st)
    | KeyCode.char 'r', ⟨true, false, false⟩ => contSignal (handleRecall o.recalled st)
    | KeyCode.home, _ => contSignal (handleHome st)
    | KeyCode.endKey, _ => contSignal (handleEndKey st)
    | KeyCode.left, ⟨true, false, false⟩ => contSignal (handleCtrlLeft st)
    | KeyCode.right, ⟨true, false, false⟩ => contSignal (handleCtrlRight st)
    | KeyCode.delete, _ => contSignal (handleDel st)
    | KeyCode.char c, m =>
      if m.ctrl && m.alt then contSignal (handleCharacter st c)
      else (st, [], some false)
    | _, _ => (st, [], some false)

/-- The host loop of IRust::run over a finite schedule of events with their
collaborator inputs, stopping when a handler signals exit (or stays blocked). -/
def runEvents : List (Oracle × Event) → St → St
  | [], st => st
  | (o, ev) :: rest, st =>
    let (st2, _, signal) := handleInputEvent o ev st
    match signal with
    | some false => runEvents rest st2
    | _ => st2

/-! ## TextBuffer operation sequences -/

/-- The TextBuffer operations of spec section 4.1, as a syntax for sequences. -/
inductive BufOp where
  | insert (c : Char)
  | insertStr (s : List Char)
  | removeCurrentChar
  | moveForward
  | moveBackward
  | clear
  | gotoStart
  deriving Repr, DecidableEq

def applyBufOp (b : Buffer) : BufOp → Buffer
  | .insert c => b.insert c
  | .insertStr s => b.insertStr s
  | .removeCurrentChar => b.removeCurrentChar
  | .moveForward => b.moveForward
  | .moveBackward => b.moveBackward
  | .clear => b.clear
  | .gotoStart => b.gotoStart

def applyBufOps (ops : List BufOp) (b : Buffer) : Buffer :=
  ops.foldl applyBufOp b

/-! ## Invariant lemmas: every TextBuffer operation keeps pos in bounds -/

theorem Buffer.inv_insert {b : Buffer} (h : b.inv) (c : Char) : (b.insert c).inv := by
  unfold Buffer.inv Buffer.insert at *
  simp only [List.length_insertIdx _ _ h]
  omega

theorem Buffer.inv_insertStr {b : Buffer} (h : b.inv) (s : List Char) :
    (b.insertStr s).inv := by
  unfold Buffer.inv Buffer.insertStr at *
  simp only [List.length_append, List.length_take, List.length_drop]
  omega

theorem Buffer.inv_removeCurrentChar {b : Buffer} (h : b.inv) :
    b.removeCurrentChar.inv := by
  unfold Buffer.inv Buffer.removeCurrentChar at *
  simp only [List.length_eraseIdx]
  split <;> omega

theorem Buffer.inv_moveForward {b : Buffer} (h : b.inv) : b.moveForward.inv := by
  unfold Buffer.inv Buffer.moveForward at *
  split
  · dsimp only
    omega
  · exact h

theorem Buffer.inv_moveBackward {b : Buffer} (h : b.inv) : b.moveBackward.inv := by
  unfold Buffer.inv Buffer.moveBackward at *
  dsimp only
  omega

theorem Buffer.inv_clear (b : Buffer) : b.clear.inv := by
  unfold Buffer.inv Buffer.clear
  simp

theorem Buffer.inv_gotoStart (b : Buffer) : b.gotoStart.inv := by
  unfold Buffer.inv Buffer.gotoStart
  simp

theorem inv_applyBufOp {b : Buffer} (h : b.inv) (op : BufOp) : (applyBufOp b op).inv := by
  cases op with
  | insert c => exact Buffer.inv_insert h c
  | insertStr s => exact Buffer.inv_insertStr h s
  | removeCurrentChar => exact Buffer.inv_removeCurrentChar h
  | moveForward => exact Buffer.inv_moveForward h
  | moveBackward => exact Buffer.inv_moveBackward h
  | clear => exact Buffer.inv_clear b
  | gotoStart => exact Buffer.inv_gotoStart b

theorem inv_applyBufOps (ops : List BufOp) {b : Buffer} (h : b.inv) :
    (applyBufOps ops b).inv := by
  induction ops generalizing b with
  | nil => exact h
  | cons op rest ih => exact ih (inv_applyBufOp h op)

/-! ## Invariant lemmas: every handler keeps pos in bounds -/

theorem takeSuggestion_buffer (st : St) : st.takeSuggestion.2.buffer = st.buffer := by
  unfold St.takeSuggestion
  cases st.racer <;> rfl

theorem takeSuggestion_cursor (st : St) : st.takeSuggestion.2.cursor = st.cursor := by
  unfold St.takeSuggestion
  cases st.racer <;> rfl

theorem inv_handleCharacter {st : St} (h : st.buffer.inv) (c : Char) :
    (handleCharacter st c).1.buffer.inv := by
  simp only [handleCharacter, St.unlockHistory, St.unlockRacer]
  exact Buffer.inv_insert h c

theorem inv_runChars {st : St} (h : st.buffer.inv) (cs : List Char) :
    (runChars st cs).1.buffer.inv := by
  induction cs generalizing st with
  | nil => exact h
  | cons c rest ih =>
    simp only [runChars]
    exact ih (inv_handleCharacter h c)

theorem inv_handleEnter {st : St} (h : st.buffer.inv) (o : EvalOutcome) (force : Bool) :
    (handleEnter o force st).1.buffer.inv := by
  simp only [handleEnter, St.unlockHistory]
  split
  · exact Buffer.inv_insert h '\n'
  · split <;> split <;> (dsimp only; exact Buffer.inv_clear _)

theorem inv_handleAltEnter {st : St} (h : st.buffer.inv) :
    (handleAltEnter st).1.buffer.inv := by
  simp only [handleAltEnter]
  exact Buffer.inv_insert h '\n'

theorem inv_handleTab {st : St} (h : st.buffer.inv) (cycled : Option (List Char)) :
    (handleTab cycled st).1.buffer.inv := by
  simp only [handleTab]
  split
  · exact Buffer.inv_insertStr h tabLiteral
  · split <;> exact h

theorem inv_handleBackTab {st : St} (h : st.buffer.inv) (cycled : Option (List Char)) :
    (handleBackTab cycled st).1.buffer.inv := by
  simp only [handleBackTab]
  split <;> exact h

theorem inv_handleRight {st : St} (h : st.buffer.inv) :
    (handleRight st).1.buffer.inv := by
  simp only [handleRight]
  split
  case _ sug st1 heq =>
    have hb : st1.buffer = st.buffer := by
      have := takeSuggestion_buffer st
      rw [heq] at this
      exact this
    exact inv_runChars (hb ▸ h) sug
  case _ st1 heq =>
    have hb : st1.buffer = st.buffer := by
      have := takeSuggestion_buffer st
      rw [heq] at this
      exact this
    split
    · exact Buffer.inv_moveForward (hb ▸ h)
    · exact hb ▸ h

theorem inv_handleLeft {st : St} (h : st.buffer.inv) :
    (handleLeft st).1.buffer.inv := by
  simp only [handleLeft, removeRacerSuggestionAndReprint]
  have hb := takeSuggestion_buffer st
  split
  · exact Buffer.inv_moveBackward (hb ▸ h)
  · exact hb ▸ h

theorem inv_handleBackspace {st : St} (h : st.buffer.inv) :
    (handleBackspace st).1.buffer.inv := by
  simp only [handleBackspace, St.unlockHistory, St.unlockRacer]
  split
  · exact Buffer.inv_removeCurrentChar (Buffer.inv_moveBackward h)
  · exact h

theorem inv_handleDel {st : St} (h : st.buffer.inv) :
    (handleDel st).1.buffer.inv := by
  simp only [handleDel, St.unlockHistory, St.unlockRacer]
  split
  · exact Buffer.inv_removeCurrentChar h
  · exact h

theorem inv_handleCtrlC (st : St) : (handleCtrlC st).1.buffer.inv := by
  simp only [handleCtrlC, St.unlockHistory, St.unlockRacer]
  exact Buffer.inv_clear _

theorem inv_handleCtrlD (st : St) (pending : List Event) :
    (handleCtrlD pending st).1 = st := by
  simp only [handleCtrlD]
  split
  · split <;> rfl
  · rfl

theorem inv_handleCtrlL (st : St) : (handleCtrlL st).1.buffer.inv := by
  simp only [handleCtrlL]
  exact Buffer.inv_gotoStart _

theorem inv_handleHomeAux (fuel : Nat) {st : St} (h : st.buffer.inv) :
    (handleHomeAux fuel st).1.buffer.inv := by
  induction fuel generalizing st with
  | zero => exact h
  | succ n ih =>
    simp only [handleHomeAux]
    split
    · exact ih (inv_handleLeft h)
    · exact h

theorem inv_handleHome {st : St} (h : st.buffer.inv) : (handleHome st).1.buffer.inv :=
  inv_handleHomeAux _ h

theorem inv_handleEndAux (fuel : Nat) {st : St} (h : st.buffer.inv) :
    (handleEndAux fuel st).buffer.inv := by
  induction fuel generalizing st with
  | zero => exact h
  | succ n ih =>
    simp only [handleEndAux]
    split
    · exact ih (Buffer.inv_moveForward h)
    · exact h

theorem inv_handleEndKey {st : St} (h : st.buffer.inv) :
    (handleEndKey st).1.buffer.inv := by
  simp only [handleEndKey]
  have h1 := inv_handleEndAux (st.cursor.width + 1) h
  split
  case _ sug st1 heq =>
    have hb : st1.buffer = (handleEndAux (st.cursor.width + 1) st).buffer := by
      have := takeSuggestion_buffer (handleEndAux (st.cursor.width + 1) st)
      rw [heq] at this
      exact this
    exact inv_runChars (hb ▸ h1) sug
  case _ st1 heq =>
    have hb : st1.buffer = (handleEndAux (st.cursor.width + 1) st).buffer := by
      have := takeSuggestion_buffer (handleEndAux (st.cursor.width + 1) st)
      rw [heq] at this
      exact this
    exact hb ▸ h1

theorem inv_scanBack (p : Char → Bool) (fuel : Nat) {b : Buffer} (cur : Cursor)
    (h : b.inv) : (scanBack p fuel b cur).1.inv := by
  induction fuel generalizing b cur with
  | zero => exact h
  | succ n ih =>
    simp only [scanBack]
    split
    · split
      · exact ih _ (Buffer.inv_moveBackward h)
      · exact h
    · exact h

theorem inv_scanForward (p : Char → Bool) (fuel : Nat) {b : Buffer} (cur : Cursor)
    (h : b.inv) : (scanForward p fuel b cur).1.inv := by
  induction fuel generalizing b cur with
  | zero => exact h
  | succ n ih =>
    simp only [scanForward]
    split
    · split
      · exact ih _ (Buffer.inv_moveForward h)
      · exact h
    · exact h

theorem inv_scanNextSpaces (fuel : Nat) {b : Buffer} (cur : Cursor)
    (h : b.inv) : (scanNextSpaces fuel b cur).1.inv := by
  induction fuel generalizing b cur with
  | zero => exact h
  | succ n ih =>
    simp only [scanNextSpaces]
    split
    · exact ih _ (Buffer.inv_moveForward h)
    · exact h

theorem inv_handleCtrlLeft {st : St} (h : st.buffer.inv) :
    (handleCtrlLeft st).1.buffer.inv := by
  simp only [handleCtrlLeft]
  have h1 := inv_handleLeft h
  split
  · exact h1
  · split
    · exact inv_scanBack _ _ _ h1
    · split
      · exact inv_scanBack _ _ _ h1
      · exact inv_scanBack _ _ _ h1

theorem inv_handleCtrlRight {st : St} (h : st.buffer.inv) :
    (handleCtrlRight st).1.buffer.inv := by
  simp only [handleCtrlRight]
  have h1 := inv_handleRight h
  split
  · exact h1
  · split
    · exact Buffer.inv_moveForward (inv_scanNextSpaces _ _ h1)
    · split
      · exact inv_scanForward _ _ _ h1
      · exact inv_scanForward _ _ _ h1

theorem inv_handleRecall {st : St} (h : st.buffer.inv)
    (recalled : Option (List Char)) : (handleRecall recalled st).1.buffer.inv := by
  simp only [handleRecall]
  cases recalled with
  | none => exact h
  | some entry =>
    unfold Buffer.inv
    exact Nat.le_refl _

set_option maxHeartbeats 2000000 in
theorem inv_handleInputEvent (o : Oracle) (ev : Event) {st : St} (h : st.buffer.inv) :
    (handleInputEvent o ev st).1.buffer.inv := by
  unfold handleInputEvent
  split
  · exact h
  · exact inv_handleCtrlC _
  · split
    all_goals
      first
      | exact inv_handleCharacter h _
      | exact inv_handleEnter h _ _
      | exact inv_handleAltEnter h
      | exact inv_handleTab h _
      | exact inv_handleBackTab h _
      | exact inv_handleLeft h
      | exact inv_handleRight h
      | exact inv_handleRecall h _
      | exact inv_handleBackspace h
      | exact inv_handleCtrlC _
      | (rw [inv_handleCtrlD]; exact h)
      | exact inv_handleCtrlL _
      | exact inv_handleHome h
      | exact inv_handleEndKey h
      | exact inv_handleCtrlLeft h
      | exact inv_handleCtrlRight h
      | exact inv_handleDel h
      | (split
         · exact inv_handleCharacter h _
         · exact h)
      | exact h

theorem inv_runEvents (evs : List (Oracle × Event)) {st : St} (h : st.buffer.inv) :
    (runEvents evs st).buffer.inv := by
  induction evs generalizing st with
  | nil => exact h
  | cons oev rest ih =>
    simp only [runEvents]
    split
    · exact ih (inv_handleInputEvent oev.1 oev.2 h)
    · exact inv_handleInputEvent oev.1 oev.2 h

/-! ## Sample states for closed witnesses -/

/-- A base session state used by concrete witnesses: empty buffer, racer enabled
with no active suggestion, unlocked history. -/
def baseSt : St :=
  { buffer := Buffer.new
  , cursor := ⟨0, 0, 80, 24⟩
  , racer := some ⟨none, false⟩
  , history := ⟨[], false⟩
  , operationNumber := 0
  , options := ⟨Color.grey⟩ }

/-- A base oracle: evaluation succeeds with an empty render queue, nothing
cycled or recalled, no pending confirmation events. -/
def baseOracle : Oracle := ⟨EvalOutcome.ok [], none, none, []⟩

/-! ## C1 -/

/-- C1: for every sequence of dispatched input events and TextBuffer operations,
the buffer's edit-position index pos satisfies 0 ≤ pos ≤ length after every
operation; no reachable state of the event state machine has pos out of bounds
(the lower bound is inherent in Nat; any prefix of a sequence instantiates the
statement, so the invariant holds after every intermediate operation). -/
theorem claim1_pos_invariant :
    (∀ (ops : List BufOp) (b : Buffer), b.inv → (applyBufOps ops b).inv) ∧
    (∀ (evs : List (Oracle × Event)) (st : St), st.buffer.inv →
      (runEvents evs st).buffer.inv) :=
  ⟨fun ops _ h => inv_applyBufOps ops h, fun evs _ h => inv_runEvents evs h⟩

/-- Witness for C1 at concrete inputs. -/
theorem claim1_pos_invariant_witness :
    (applyBufOps [BufOp.insert 'a', BufOp.moveBackward, BufOp.removeCurrentChar,
      BufOp.moveForward] Buffer.new).inv ∧
    (runEvents
      [(baseOracle, Event.key ⟨KeyCode.char 'x', ⟨false, false, false⟩⟩),
       (baseOracle, Event.key ⟨KeyCode.backspace, ⟨false, false, false⟩⟩)]
      baseSt).buffer.inv :=
  ⟨claim1_pos_invariant.1 _ _ (by decide), claim1_pos_invariant.2 _ _ (by decide)⟩

/-! ## C2 -/

/-- C2: the incompleteness detector returns true exactly when the input has
unmatched brackets (open brackets counted against their closers, nesting-aware)
or its right-trimmed content ends in one of ':', '.', '='; in particular the
two spec examples with an unmatched brace or a trailing '=' are judged
incomplete while the balanced ones are judged complete. -/
theorem claim2_incomplete_input :
    (∀ s : List Char, incompleteInput s = true ↔
      (unmatchedBrackets s = true ∨
        ∃ c, (rustTrimEnd s).getLast? = some c ∧ (c = ':' ∨ c = '.' ∨ c = '='))) ∧
    incompleteInput "fn main() \x7b".data = true ∧
    incompleteInput "let x =".data = true ∧
    incompleteInput "1 + 1".data = false ∧
    incompleteInput "\x7b1\x7d".data = false := by
  refine ⟨?_, by decide, by decide, by decide, by decide⟩
  intro s
  unfold incompleteInput
  cases h : (rustTrimEnd s).getLast? with
  | none => simp [h]
  | some c =>
    simp only [h, Bool.or_eq_true, beq_iff_eq]
    constructor
    · rintro (hu | hc)
      · exact Or.inl hu
      · exact Or.inr ⟨c, rfl, by tauto⟩
    · rintro (hu | ⟨d, hd, hor⟩)
      · exact Or.inl hu
      · cases hd
        exact Or.inr (by tauto)

/-! ## C3 -/

theorem head_of_cmdOrShell {s : List Char} (h : inputIsCmdOrShell s = true) :
    s.head? = some ':' := by
  unfold inputIsCmdOrShell at h
  cases s with
  | nil => simp at h
  | cons a t =>
    simp only [Bool.or_eq_true, beq_iff_eq, List.take_succ_cons] at h
    rcases h with h | h <;>
      (injection h with h1 h2; simp [h1])

theorem rustTrim_head_of_colon (t : List Char) :
    (rustTrim (':' :: t)).head? = some ':' := by
  unfold rustTrim rustTrimStart rustTrimEnd
  have hws : (fun c => Char.isWhitespace c) ':' = false := by decide
  rw [List.dropWhile_cons]
  simp only [hws, Bool.false_eq_true, if_false, List.reverse_cons, List.dropWhile_append]
  split
  · simp [List.dropWhile_cons, hws]
  · simp

theorem trim_head_of_cmdOrShell {s : List Char} (h : inputIsCmdOrShell s = true) :
    (rustTrim s).head? = some ':' := by
  have hh := head_of_cmdOrShell h
  cases s with
  | nil => simp at hh
  | cons a t =>
    simp only [List.head?_cons, Option.some.injEq] at hh
    subst hh
    exact rustTrim_head_of_colon t

/-- C3: a non-forced Enter on a buffer whose trimmed content does not start with
':' and which is judged incomplete inserts a single newline at pos (advancing
pos by one), performs no collaborator call at all (in particular no Evaluator
submit and no History push), and does not clear the buffer. -/
theorem claim3_incomplete_enter_newline (o : EvalOutcome) (st : St)
    (hinv : st.buffer.inv)
    (hnotcmd : (rustTrim st.buffer.chars).head? ≠ some ':')
    (hincomplete : incompleteInput st.buffer.chars = true) :
    (handleEnter o false st).1.buffer.chars
        = st.buffer.chars.insertIdx st.buffer.pos '\n' ∧
    (handleEnter o false st).1.buffer.pos = st.buffer.pos + 1 ∧
    (handleEnter o false st).2 = [] ∧
    (handleEnter o false st).1.buffer.chars ≠ [] := by
  have hcmd : inputIsCmdOrShell st.buffer.chars = false := by
    cases hc : inputIsCmdOrShell st.buffer.chars
    · rfl
    · exact absurd (trim_head_of_cmdOrShell hc) hnotcmd
  have hlen := List.length_insertIdx (a := '\n') st.buffer.pos st.buffer.chars hinv
  simp only [handleEnter, St.unlockHistory, Buffer.toStr, Buffer.insert]
  rw [if_pos (by simp [hcmd, hincomplete])]
  refine ⟨rfl, rfl, rfl, ?_⟩
  intro heq
  dsimp only at heq
  rw [heq] at hlen
  simp at hlen

/-- Witness state for C3: the spec example of an incomplete buffer. -/
def claim3St : St := { baseSt with buffer := ⟨"let x =".data, 7⟩ }

/-- Witness for C3 at a concrete incomplete buffer. -/
theorem claim3_incomplete_enter_newline_witness :
    (handleEnter (EvalOutcome.ok []) false claim3St).1.buffer.chars
        = claim3St.buffer.chars.insertIdx claim3St.buffer.pos '\n' ∧
    (handleEnter (EvalOutcome.ok []) false claim3St).1.buffer.pos
        = claim3St.buffer.pos + 1 ∧
    (handleEnter (EvalOutcome.ok []) false claim3St).2 = [] ∧
    (handleEnter (EvalOutcome.ok []) false claim3St).1.buffer.chars ≠ [] :=
  claim3_incomplete_enter_newline (EvalOutcome.ok []) claim3St
    (by decide) (by decide) (by decide)

/-! ## C4 -/

theorem handleCharacter_racer {st : St} {r : RacerState} (h : st.racer = some r)
    (c : Char) : (handleCharacter st c).1.racer = some ⟨none, false⟩ := by
  simp [handleCharacter, St.unlockHistory, St.unlockRacer, h, RacerState.unlockRacerUpdate]

theorem handleCharacter_racer_irrel {st : St} {r r2 : RacerState}
    (h : st.racer = some r) (c : Char) :
    handleCharacter { st with racer := some r2 } c = handleCharacter st c := by
  simp [handleCharacter, St.unlockHistory, St.unlockRacer, h, RacerState.unlockRacerUpdate]

theorem runChars_racer_some {st : St} {r : RacerState} (h : st.racer = some r)
    (c : Char) (cs : List Char) :
    (runChars st (c :: cs)).1.racer = some ⟨none, false⟩ := by
  induction cs generalizing st r c with
  | nil =>
    simp only [runChars]
    exact handleCharacter_racer h c
  | cons d ds ih =>
    simp only [runChars]
    exact ih (handleCharacter_racer h c) d

/-- C4: with an active suggestion, Right-arrow accepts it by replaying its
characters through the ordinary character-insertion handler: the resulting
buffer, cursor, history state (including its navigation lock), racer query lock
and emitted effects coincide with those reached by typing the suggestion's
characters manually one at a time from the same state, and the active
suggestion is cleared. -/
theorem claim4_right_accepts_by_replay (st : St) (r : RacerState) (s : List Char)
    (hr : st.racer = some r) (hs : r.activeSuggestion = some s) :
    (handleRight st).1.buffer = (runChars st s).1.buffer ∧
    (handleRight st).1.cursor = (runChars st s).1.cursor ∧
    (handleRight st).1.history = (runChars st s).1.history ∧
    (handleRight st).1.racer.map RacerState.updateLock
      = (runChars st s).1.racer.map RacerState.updateLock ∧
    (handleRight st).1.activeSuggestion = none ∧
    (handleRight st).2 = (runChars st s).2 := by
  have hright : handleRight st
      = runChars { st with racer := some { r with activeSuggestion := none } } s := by
    unfold handleRight St.takeSuggestion
    rw [hr]
    dsimp only
    rw [hs]
  cases s with
  | nil =>
    rw [hright]
    simp [runChars, hr, St.activeSuggestion]
  | cons c cs =>
    have heq : runChars { st with racer := some { r with activeSuggestion := none } } (c :: cs)
        = runChars st (c :: cs) := by
      simp only [runChars]
      rw [handleCharacter_racer_irrel hr c]
    rw [hright, heq]
    refine ⟨rfl, rfl, rfl, rfl, ?_, rfl⟩
    simp [St.activeSuggestion, runChars_racer_some hr c cs]

/-- Witness state for C4: buffer with one character, an active suggestion. -/
def claim4St : St :=
  { baseSt with buffer := ⟨['x'], 1⟩, racer := some ⟨some ['a', 'b'], true⟩ }

/-- Witness for C4 at a concrete state with active suggestion. -/
theorem claim4_right_accepts_by_replay_witness :
    (handleRight claim4St).1.buffer = (runChars claim4St ['a', 'b']).1.buffer ∧
    (handleRight claim4St).1.cursor = (runChars claim4St ['a', 'b']).1.cursor ∧
    (handleRight claim4St).1.history = (runChars claim4St ['a', 'b']).1.history ∧
    (handleRight claim4St).1.racer.map RacerState.updateLock
      = (runChars claim4St ['a', 'b']).1.racer.map RacerState.updateLock ∧
    (handleRight claim4St).1.activeSuggestion = none ∧
    (handleRight claim4St).2 = (runChars claim4St ['a', 'b']).2 :=
  claim4_right_accepts_by_replay claim4St ⟨some ['a', 'b'], true⟩ ['a', 'b'] rfl rfl

/-! ## C5: which handlers call update_suggestions -/

theorem handleCharacter_effects (st : St) (c : Char) : (handleCharacter st c).2 = [] :=
  rfl

theorem runChars_effects (st : St) (cs : List Char) : (runChars st cs).2 = [] := by
  induction cs generalizing st with
  | nil => rfl
  | cons c rest ih => exact ih (handleCharacter st c).1

theorem handleEnter_no_query (o : EvalOutcome) (f : Bool) (st : St) :
    Effect.completionQuery ∉ (handleEnter o f st).2 := by
  unfold handleEnter
  dsimp only
  split
  · simp
  · split <;> split <;> simp

theorem handleLeft_effects (st : St) : (handleLeft st).2 = [] := by
  unfold handleLeft
  dsimp only
  split <;> rfl

theorem handleRight_effects (st : St) : (handleRight st).2 = [] := by
  unfold handleRight
  split
  · exact runChars_effects _ _
  · split <;> rfl

theorem handleHomeAux_effects (fuel : Nat) (st : St) :
    (handleHomeAux fuel st).2 = [] := by
  induction fuel generalizing st with
  | zero => rfl
  | succ n ih =>
    simp only [handleHomeAux]
    split
    · rcases hL : handleLeft st with ⟨st1, e1⟩
      have he := handleLeft_effects st
      rw [hL] at he
      dsimp only at he
      dsimp only
      rw [he, ih]
      rfl
    · rfl

theorem ctrlDConfirm_no_query {evs : List Event} {b : Bool} {effs : List Effect}
    (h : ctrlDConfirm evs = some (b, effs)) : Effect.completionQuery ∉ effs := by
  induction evs with
  | nil => simp [ctrlDConfirm] at h
  | cons ev rest ih =>
    unfold ctrlDConfirm at h
    split at h
    · split at h <;>
        (injection h with h1; injection h1 with h2 h3; subst h3; simp)
    · injection h with h1
      injection h1 with h2 h3
      subst h3
      simp
    · injection h with h1
      injection h1 with h2 h3
      subst h3
      simp
    · exact ih h

theorem handleCtrlD_no_query (pending : List Event) (st : St) :
    Effect.completionQuery ∉ (handleCtrlD pending st).2.1 := by
  unfold handleCtrlD
  split
  · split
    · rename_i answer effs heq
      have hq := ctrlDConfirm_no_query heq
      simp only [List.mem_cons]
      rintro (h | h)
      · exact absurd h (by simp)
      · exact hq h
    · simp
  · simp

theorem handleEndKey_effects (st : St) : (handleEndKey st).2 = [] := by
  simp only [handleEndKey]
  split
  · exact runChars_effects _ _
  · rfl

theorem contSignal_effects (r : St × List Effect) : (contSignal r).2.1 = r.2 := rfl

theorem handleCtrlC_effects (st : St) : (handleCtrlC st).2 = [Effect.printPrompt] := rfl

theorem handleCtrlLeft_effects (st : St) : (handleCtrlLeft st).2 = [] := by
  unfold handleCtrlLeft
  rcases hL : handleLeft st with ⟨st1, e1⟩
  have he := handleLeft_effects st
  rw [hL] at he
  dsimp only at he
  dsimp only
  split
  · exact he
  · split
    · exact he
    · split <;> exact he

theorem handleCtrlRight_effects (st : St) : (handleCtrlRight st).2 = [] := by
  unfold handleCtrlRight
  rcases hR : handleRight st with ⟨st1, e1⟩
  have he := handleRight_effects st
  rw [hR] at he
  dsimp only at he
  dsimp only
  split
  · exact he
  · split
    · exact he
    · split <;> exact he

/-- C5 fails on the code: handle_back_tab has no line-start guard — with the
racer enabled it queries the completion provider even when the buffer is at a
logical line start (here: the empty buffer). -/
theorem claim5_counterexample :
    baseSt.buffer.isAtStringLineStart = true ∧
    Effect.completionQuery ∈ (handleBackTab none baseSt).2 := by
  decide

/-- C5 amended: a completion query is issued only by the Tab and Shift-Tab
handlers (no other dispatched event queries the provider), and Tab never
queries at a logical line start (it inserts the literal tab expansion
instead); Shift-Tab, however, carries no line-start guard. -/
theorem claim5_query_only_tab_backtab :
    (∀ (o : Oracle) (ev : Event) (st : St),
      Effect.completionQuery ∈ (handleInputEvent o ev st).2.1 →
      ∃ m : Modifiers, ev = Event.key ⟨KeyCode.tab, m⟩ ∨ ev = Event.key ⟨KeyCode.backTab, m⟩) ∧
    (∀ (cycled : Option (List Char)) (st : St),
      st.buffer.isAtStringLineStart = true →
      Effect.completionQuery ∉ (handleTab cycled st).2) := by
  constructor
  · intro o ev st hmem
    unfold handleInputEvent at hmem
    split at hmem
    · simp at hmem
    · simp [handleCtrlC, St.unlockHistory, St.unlockRacer] at hmem
    · rename_i ev code mods
      split at hmem
      all_goals
        first
        | exact ⟨_, Or.inl rfl⟩
        | exact ⟨_, Or.inr rfl⟩
        | exact absurd hmem (by rw [contSignal_effects, handleCharacter_effects]; simp)
        | exact absurd hmem (handleEnter_no_query _ _ _)
        | exact absurd hmem (by rw [contSignal_effects, handleLeft_effects]; simp)
        | exact absurd hmem (by rw [contSignal_effects, handleRight_effects]; simp)
        | exact absurd hmem (handleCtrlD_no_query _ _)
        | exact absurd hmem
            (by rw [contSignal_effects]
                unfold handleHome
                rw [handleHomeAux_effects]
                simp)
        | exact absurd hmem (by rw [contSignal_effects, handleEndKey_effects]; simp)
        | exact absurd hmem (by rw [contSignal_effects, handleCtrlLeft_effects]; simp)
        | exact absurd hmem (by rw [contSignal_effects, handleCtrlRight_effects]; simp)
        | exact absurd hmem (by rw [contSignal_effects]; unfold handleAltEnter; simp)
        | exact absurd hmem (by rw [contSignal_effects]; unfold handleBackspace; split <;> simp)
        | exact absurd hmem (by rw [contSignal_effects]; unfold handleDel; split <;> simp)
        | exact absurd hmem (by rw [contSignal_effects, handleCtrlC_effects]; simp)
        | exact absurd hmem
            (by rw [contSignal_effects]
                unfold handleCtrlZ handleCtrlL
                simp)
        | exact absurd hmem (by rw [contSignal_effects]; unfold handleCtrlL; simp)
        | exact absurd hmem (by rw [contSignal_effects]; unfold handleRecall; split <;> simp)
        | (exfalso
           revert hmem
           split
           · rw [contSignal_effects, handleCharacter_effects]
             simp
           · simp)
        | exact absurd hmem (by simp)
  · intro cycled st h
    unfold handleTab
    rw [if_pos (by simp [h])]
    simp

/-- Witness for the amended C5 at concrete inputs: a Shift-Tab dispatch that
does query is indeed a Tab/BackTab event, and Tab at a line start does not
query. -/
theorem claim5_query_only_tab_backtab_witness :
    (∃ m : Modifiers,
      Event.key ⟨KeyCode.backTab, ⟨false, false, false⟩⟩
          = Event.key ⟨KeyCode.tab, m⟩ ∨
      Event.key ⟨KeyCode.backTab, ⟨false, false, false⟩⟩
          = Event.key ⟨KeyCode.backTab, m⟩) ∧
    Effect.completionQuery ∉ (handleTab none baseSt).2 :=
  ⟨claim5_query_only_tab_backtab.1 baseOracle
      (Event.key ⟨KeyCode.backTab, ⟨false, false, false⟩⟩) baseSt (by decide),
   claim5_query_only_tab_backtab.2 none baseSt (by decide)⟩

/-! ## C6: word jumps -/

/-- The character classes of the spec's word-jump rule. -/
inductive CharClass where
  | space
  | alnum
  | punct
  deriving Repr, DecidableEq

/-- Follows the spec's words: classify a character into one of space,
alphanumeric, other-punctuation. -/
def classOf (c : Char) : CharClass :=
  if c = ' ' then CharClass.space
  else if rustIsAlphanumeric c then CharClass.alnum
  else CharClass.punct

/-- Follows the spec's words (refinement reference, not a source translation):
one ordinary left step, then continue backward while the scanned character
stays in the class of the character now at the edit position, stopping at the
first differing class or the buffer boundary. -/
def specWordJumpLeft (chars : List Char) (pos : Nat) : Nat :=
  if pos = 0 then 0
  else
    match chars.get? (pos - 1) with
    | none => pos - 1
    | some c =>
      (pos - 1) -
        ((chars.take (pos - 1)).reverse.takeWhile
          (fun d => classOf d == classOf c)).length

/-- Follows the spec's words (refinement reference): one ordinary right step,
then continue forward while the scanned character stays in the class of the
character now at the edit position, stopping at the first differing class or
the buffer boundary. -/
def specWordJumpRight (chars : List Char) (pos : Nat) : Nat :=
  let p := if pos < chars.length then pos + 1 else pos
  match chars.get? p with
  | none => p
  | some c =>
    p + ((chars.drop p).takeWhile (fun d => classOf d == classOf c)).length

theorem class_pred_space (d : Char) :
    (d == ' ') = (classOf d == CharClass.space) := by
  unfold classOf
  by_cases h : d = ' '
  · simp [h]
  · have hd : (d == ' ') = false := by simp [h]
    rw [hd, if_neg h]
    split <;> rfl

theorem class_pred_alnum (d : Char) :
    rustIsAlphanumeric d = (classOf d == CharClass.alnum) := by
  unfold classOf
  by_cases h : d = ' '
  · subst h
    rfl
  · rw [if_neg h]
    by_cases ha : rustIsAlphanumeric d <;> simp [ha]

theorem class_pred_punct (d : Char) :
    (!rustIsAlphanumeric d && d != ' ') = (classOf d == CharClass.punct) := by
  unfold classOf
  by_cases h : d = ' '
  · subst h
    rfl
  · rw [if_neg h]
    by_cases ha : rustIsAlphanumeric d <;> simp [ha, h]

theorem takeWhile_length_le (p : Char → Bool) (l : List Char) :
    (l.takeWhile p).length ≤ l.length := by
  induction l with
  | nil => simp
  | cons a t ih =>
    rw [List.takeWhile_cons]
    split
    · simpa using ih
    · simp

theorem scanBack_pos (p : Char → Bool) :
    ∀ (fuel : Nat) (chars : List Char) (pos : Nat) (cur : Cursor),
      pos ≤ fuel → pos ≤ chars.length →
      (scanBack p fuel ⟨chars, pos⟩ cur).1
        = ⟨chars, pos - ((chars.take pos).reverse.takeWhile p).length⟩ := by
  intro fuel
  induction fuel with
  | zero =>
    intro chars pos cur hf hinv
    have hp0 : pos = 0 := Nat.le_zero.mp hf
    subst hp0
    simp [scanBack]
  | succ n ih =>
    intro chars pos cur hf hinv
    cases pos with
    | zero => simp [scanBack, Buffer.previousChar]
    | succ q =>
      have hq : q < chars.length := Nat.lt_of_succ_le hinv
      obtain ⟨c, hget⟩ : ∃ c, chars.get? q = some c := by
        rw [List.get?_eq_get hq]
        exact ⟨_, rfl⟩
      have hget2 : chars[q]? = some c := by
        rw [← List.get?_eq_getElem? chars q]
        exact hget
      have hprev : Buffer.previousChar ⟨chars, q + 1⟩ = some c := by
        simp [Buffer.previousChar, hget2]
      have htake : (chars.take (q + 1)).reverse = c :: (chars.take q).reverse := by
        rw [List.take_succ, hget2]
        simp
      simp only [scanBack, hprev]
      by_cases hp : p c = true
      · rw [if_pos hp]
        have hmb : Buffer.moveBackward ⟨chars, q + 1⟩ = ⟨chars, q⟩ := by
          simp [Buffer.moveBackward]
        rw [hmb, ih chars q _ (Nat.le_of_succ_le_succ hf) (Nat.le_of_lt hq)]
        rw [htake, List.takeWhile_cons, if_pos hp]
        have hlen : ((chars.take q).reverse.takeWhile p).length ≤ q := by
          calc ((chars.take q).reverse.takeWhile p).length
              ≤ (chars.take q).reverse.length := takeWhile_length_le p _
            _ = (chars.take q).length := List.length_reverse _
            _ ≤ q := by
                rw [List.length_take]
                exact Nat.min_le_left _ _
        congr 1
        simp only [List.length_cons]
        omega
      · rw [if_neg hp, htake, List.takeWhile_cons, if_neg hp]
        simp

theorem scanForward_pos (p : Char → Bool) :
    ∀ (fuel : Nat) (chars : List Char) (pos : Nat) (cur : Cursor),
      chars.length - pos ≤ fuel →
      (scanForward p fuel ⟨chars, pos⟩ cur).1
        = ⟨chars, pos + ((chars.drop pos).takeWhile p).length⟩ := by
  intro fuel
  induction fuel with
  | zero =>
    intro chars pos cur hf
    have hge : chars.length ≤ pos := by omega
    rw [List.drop_eq_nil_of_le hge]
    simp [scanForward]
  | succ n ih =>
    intro chars pos cur hf
    cases hget : chars.get? pos with
    | none =>
      have hge : chars.length ≤ pos := List.get?_eq_none.mp hget
      rw [List.drop_eq_nil_of_le hge]
      simp only [scanForward, Buffer.currentChar, hget, List.takeWhile_nil,
        List.length_nil, Nat.add_zero]
    | some c =>
      have hlt : pos < chars.length := by
        rcases List.get?_eq_some.mp hget with ⟨h1, _⟩
        exact h1
      have hget2 : chars[pos]? = some c := by
        rw [← List.get?_eq_getElem? chars pos]
        exact hget
      have helem : chars[pos] = c := by
        have := List.getElem?_eq_getElem (l := chars) (n := pos) hlt
        rw [this] at hget2
        injection hget2
      have hdrop : chars.drop pos = c :: chars.drop (pos + 1) := by
        rw [List.drop_eq_getElem_cons hlt, helem]
      simp only [scanForward, Buffer.currentChar, hget]
      by_cases hp : p c = true
      · rw [if_pos hp]
        have hmf : Buffer.moveForward ⟨chars, pos⟩ = ⟨chars, pos + 1⟩ := by
          simp [Buffer.moveForward, hlt]
        rw [hmf, ih chars (pos + 1) _ (by omega)]
        rw [hdrop, List.takeWhile_cons, if_pos hp]
        simp only [List.length_cons]
        congr 1
        omega
      · rw [if_neg hp, hdrop, List.takeWhile_cons, if_neg hp]
        simp

theorem scanNextSpaces_pos :
    ∀ (fuel : Nat) (chars : List Char) (pos : Nat) (cur : Cursor),
      chars.length - pos ≤ fuel → chars.get? pos = some ' ' →
      (scanNextSpaces fuel ⟨chars, pos⟩ cur).1.moveForward
        = ⟨chars, pos + ((chars.drop pos).takeWhile (fun d => d == ' ')).length⟩ := by
  intro fuel
  induction fuel with
  | zero =>
    intro chars pos cur hf hcur
    have hge : chars.length ≤ pos := by omega
    rw [List.get?_eq_none.mpr hge] at hcur
    exact absurd hcur (by simp)
  | succ n ih =>
    intro chars pos cur hf hcur
    have hlt : pos < chars.length := by
      rcases List.get?_eq_some.mp hcur with ⟨h1, _⟩
      exact h1
    have hcur2 : chars[pos]? = some ' ' := by
      rw [← List.get?_eq_getElem? chars pos]
      exact hcur
    have helem : chars[pos] = ' ' := by
      have := List.getElem?_eq_getElem (l := chars) (n := pos) hlt
      rw [this] at hcur2
      injection hcur2
    have hdrop : chars.drop pos = ' ' :: chars.drop (pos + 1) := by
      rw [List.drop_eq_getElem_cons hlt, helem]
    have hmf : Buffer.moveForward ⟨chars, pos⟩ = ⟨chars, pos + 1⟩ := by
      simp [Buffer.moveForward, hlt]
    rw [hdrop]
    rw [List.takeWhile_cons, if_pos (by simp)]
    by_cases hnext : Buffer.nextChar ⟨chars, pos⟩ == some ' '
    · have hnext2 : chars.get? (pos + 1) = some ' ' := by
        unfold Buffer.nextChar at hnext
        exact eq_of_beq hnext
      simp only [scanNextSpaces, hnext, if_true, hmf]
      rw [ih chars (pos + 1) _ (by omega) hnext2]
      simp only [List.length_cons]
      congr 1
      omega
    · have hrest : (chars.drop (pos + 1)).takeWhile (fun d => d == ' ') = [] := by
        cases hn : chars.get? (pos + 1) with
        | none =>
          rw [List.drop_eq_nil_of_le (List.get?_eq_none.mp hn)]
          rfl
        | some d =>
          have hd : ¬(d = ' ') := by
            intro hd
            subst hd
            unfold Buffer.nextChar at hnext
            rw [hn] at hnext
            simp at hnext
          have hlt1 : pos + 1 < chars.length := by
            rcases List.get?_eq_some.mp hn with ⟨h1, _⟩
            exact h1
          have helem1 : chars[pos + 1] = d := by
            have h2 : chars[pos + 1]? = some d := by
              rw [← List.get?_eq_getElem? chars (pos + 1)]
              exact hn
            have := List.getElem?_eq_getElem (l := chars) (n := pos + 1) hlt1
            rw [this] at h2
            injection h2
          rw [List.drop_eq_getElem_cons hlt1, helem1, List.takeWhile_cons,
            if_neg (by simp [hd])]
      simp [scanNextSpaces, hnext, hmf, hrest]

theorem handleLeft_buffer (st : St) :
    (handleLeft st).1.buffer
      = if (!st.buffer.isAtStart && !st.buffer.isEmpty) = true
        then st.buffer.moveBackward else st.buffer := by
  unfold handleLeft removeRacerSuggestionAndReprint St.takeSuggestion
  cases st.racer with
  | none =>
    dsimp only
    split <;> rfl
  | some r =>
    dsimp only
    split <;> rfl

theorem handleRight_buffer (st : St) (hsug : st.activeSuggestion = none) :
    (handleRight st).1.buffer = st.buffer.moveForward := by
  have hend : ¬((!st.buffer.isAtEnd) = true) → st.buffer = st.buffer.moveForward := by
    intro h
    have hEq : st.buffer.pos = st.buffer.chars.length := by
      simp at h
      simpa [Buffer.isAtEnd] using h
    unfold Buffer.moveForward
    rw [if_neg (by omega)]
  unfold handleRight St.takeSuggestion
  unfold St.activeSuggestion at hsug
  cases hr : st.racer with
  | none =>
    dsimp only
    split
    · rfl
    · rename_i h
      show st.buffer = st.buffer.moveForward
      exact hend h
  | some r =>
    rw [hr] at hsug
    dsimp only at hsug
    dsimp only
    rw [hsug]
    dsimp only
    split
    · rfl
    · rename_i h
      show st.buffer = st.buffer.moveForward
      exact hend h

theorem ctrlLeft_buffer_spec (st : St) (hinv : st.buffer.inv) :
    (handleCtrlLeft st).1.buffer
      = ⟨st.buffer.chars, specWordJumpLeft st.buffer.chars st.buffer.pos⟩ := by
  unfold Buffer.inv at hinv
  rcases hL : handleLeft st with ⟨st1, e1⟩
  have hb1 := handleLeft_buffer st
  rw [hL] at hb1
  dsimp only at hb1
  unfold handleCtrlLeft
  rw [hL]
  dsimp only
  cases hpos : st.buffer.pos with
  | zero =>
    have hcond : (!st.buffer.isAtStart && !st.buffer.isEmpty) = false := by
      simp [Buffer.isAtStart, hpos]
    rw [hcond] at hb1
    simp only [Bool.false_eq_true, if_false] at hb1
    have hbl : st1.buffer = ⟨st.buffer.chars, 0⟩ := by
      rw [hb1, ← hpos]
    rw [hbl]
    have hspec : specWordJumpLeft st.buffer.chars 0 = 0 := by
      simp [specWordJumpLeft]
    rw [hspec]
    cases hc : Buffer.currentChar ⟨st.buffer.chars, 0⟩ with
    | none =>
      dsimp only
      rw [hbl]
    | some c =>
      dsimp only
      split
      · simp [scanBack]
      · split
        · simp [scanBack]
        · simp [scanBack]
  | succ q =>
    have hq : q < st.buffer.chars.length := by omega
    have hne : st.buffer.isEmpty = false := by
      unfold Buffer.isEmpty
      cases hcc : st.buffer.chars with
      | nil =>
        rw [hcc] at hq
        simp at hq
      | cons a t => rfl
    have hcond : (!st.buffer.isAtStart && !st.buffer.isEmpty) = true := by
      simp [Buffer.isAtStart, hpos, hne]
    rw [hcond] at hb1
    simp only [if_true] at hb1
    have hbl : st1.buffer = ⟨st.buffer.chars, q⟩ := by
      rw [hb1]
      unfold Buffer.moveBackward
      rw [show st.buffer.pos - 1 = q from by omega]
    obtain ⟨c, hgetc⟩ : ∃ c, st.buffer.chars.get? q = some c := by
      rw [List.get?_eq_get hq]
      exact ⟨_, rfl⟩
    have hcc : Buffer.currentChar ⟨st.buffer.chars, q⟩ = some c := hgetc
    have hspec : specWordJumpLeft st.buffer.chars (q + 1)
        = q - ((st.buffer.chars.take q).reverse.takeWhile
            (fun d => classOf d == classOf c)).length := by
      unfold specWordJumpLeft
      rw [if_neg (Nat.succ_ne_zero q)]
      simp only [Nat.add_sub_cancel]
      rw [hgetc]
    rw [hbl, hcc, hspec]
    dsimp only
    by_cases hsp : c = ' '
    · rw [if_pos hsp]
      dsimp only
      rw [scanBack_pos _ q st.buffer.chars q _ (Nat.le_refl q) (Nat.le_of_lt hq)]
      have hfun : (fun d => d == ' ') = (fun d => classOf d == classOf c) := by
        funext d
        rw [class_pred_space d, hsp,
          show classOf ' ' = CharClass.space from rfl]
      rw [hfun]
    · rw [if_neg hsp]
      by_cases hal : rustIsAlphanumeric c = true
      · rw [if_pos hal]
        dsimp only
        rw [scanBack_pos _ q st.buffer.chars q _ (Nat.le_refl q) (Nat.le_of_lt hq)]
        have hclass : classOf c = CharClass.alnum := by
          unfold classOf
          rw [if_neg hsp, if_pos hal]
        have hfun : (fun d => rustIsAlphanumeric d)
            = (fun d => classOf d == classOf c) := by
          funext d
          rw [class_pred_alnum d, hclass]
        rw [hfun]
      · rw [if_neg hal]
        dsimp only
        rw [scanBack_pos _ q st.buffer.chars q _ (Nat.le_refl q) (Nat.le_of_lt hq)]
        have hclass : classOf c = CharClass.punct := by
          unfold classOf
          rw [if_neg hsp, if_neg hal]
        have hfun : (fun d => !rustIsAlphanumeric d && d != ' ')
            = (fun d => classOf d == classOf c) := by
          funext d
          rw [class_pred_punct d, hclass]
        rw [hfun]

theorem ctrlRight_buffer_spec (st : St) (hinv : st.buffer.inv)
    (hsug : st.activeSuggestion = none) :
    (handleCtrlRight st).1.buffer
      = ⟨st.buffer.chars, specWordJumpRight st.buffer.chars st.buffer.pos⟩ := by
  unfold Buffer.inv at hinv
  rcases hR : handleRight st with ⟨st1, e1⟩
  have hb1 := handleRight_buffer st hsug
  rw [hR] at hb1
  dsimp only at hb1
  have hP : st1.buffer = ⟨st.buffer.chars, st.buffer.moveForward.pos⟩ := by
    rw [hb1]
    unfold Buffer.moveForward
    split <;> rfl
  have hPle : st.buffer.moveForward.pos ≤ st.buffer.chars.length := by
    unfold Buffer.moveForward
    split
    · dsimp only
      omega
    · omega
  have hspecP : specWordJumpRight st.buffer.chars st.buffer.pos
      = (match st.buffer.chars.get? st.buffer.moveForward.pos with
         | none => st.buffer.moveForward.pos
         | some c =>
           st.buffer.moveForward.pos +
             ((st.buffer.chars.drop st.buffer.moveForward.pos).takeWhile
               (fun d => classOf d == classOf c)).length) := by
    unfold specWordJumpRight Buffer.moveForward
    by_cases hlt : st.buffer.pos < st.buffer.chars.length
    · simp [hlt]
    · simp [hlt]
  unfold handleCtrlRight
  rw [hR]
  dsimp only
  rw [hP, hspecP]
  cases hget : st.buffer.chars.get? st.buffer.moveForward.pos with
  | none =>
    have hc : Buffer.currentChar ⟨st.buffer.chars, st.buffer.moveForward.pos⟩ = none :=
      hget
    rw [hc]
    dsimp only
    rw [hP]
  | some c =>
    have hc : Buffer.currentChar ⟨st.buffer.chars, st.buffer.moveForward.pos⟩ = some c :=
      hget
    rw [hc]
    dsimp only
    by_cases hsp : c = ' '
    · rw [if_pos hsp]
      dsimp only
      subst hsp
      rw [scanNextSpaces_pos _ st.buffer.chars st.buffer.moveForward.pos _
        (Nat.le_refl _) hget]
      have hfun : (fun d => d == ' ') = (fun d => classOf d == classOf ' ') := by
        funext d
        rw [class_pred_space d, show classOf ' ' = CharClass.space from rfl]
      rw [hfun]
    · rw [if_neg hsp]
      by_cases hal : rustIsAlphanumeric c = true
      · rw [if_pos hal]
        dsimp only
        rw [scanForward_pos _ _ st.buffer.chars st.buffer.moveForward.pos _
          (Nat.le_refl _)]
        have hclass : classOf c = CharClass.alnum := by
          unfold classOf
          rw [if_neg hsp, if_pos hal]
        have hfun : (fun d => rustIsAlphanumeric d)
            = (fun d => classOf d == classOf c) := by
          funext d
          rw [class_pred_alnum d, hclass]
        rw [hfun]
      · rw [if_neg hal]
        dsimp only
        rw [scanForward_pos _ _ st.buffer.chars st.buffer.moveForward.pos _
          (Nat.le_refl _)]
        have hclass : classOf c = CharClass.punct := by
          unfold classOf
          rw [if_neg hsp, if_neg hal]
        have hfun : (fun d => !rustIsAlphanumeric d && d != ' ')
            = (fun d => classOf d == classOf c) := by
          funext d
          rw [class_pred_punct d, hclass]
        rw [hfun]

/-- Witness state for C6: the spec's word-jump example buffer, pos at the end.
Index 5 is the start of the word bar, index 8 the dot, index 9 the start of the
word baz. -/
def claim6St : St := { baseSt with buffer := ⟨"foo  bar.baz".data, 12⟩ }

/-- C6 fails on the code in its concrete example: starting from the end of the
example buffer, the second Ctrl+Left lands on the dot at index 8, not at the
start of the word bar (index 5); only a third Ctrl+Left reaches index 5. -/
theorem claim6_counterexample :
    (handleCtrlLeft (handleCtrlLeft claim6St).1).1.buffer.pos = 8 ∧
    (handleCtrlLeft (handleCtrlLeft claim6St).1).1.buffer.pos ≠ 5 := by
  decide

/-- C6 amended: the word-jump handlers perform one ordinary left/right step,
classify the character now at the edit position into space / alphanumeric /
other-punctuation, and continue stepping while the scanned character stays in
that class, stopping at the first differing class or a buffer boundary
(formalised by specWordJumpLeft / specWordJumpRight, written from the spec's
words); in the example buffer the first Ctrl+Left lands at the start of baz
(index 9), the second on the dot (index 8), and the third at the start of bar
(index 5). -/
theorem claim6_word_jumps :
    (∀ st : St, st.buffer.inv →
      (handleCtrlLeft st).1.buffer
        = ⟨st.buffer.chars, specWordJumpLeft st.buffer.chars st.buffer.pos⟩) ∧
    (∀ st : St, st.buffer.inv → st.activeSuggestion = none →
      (handleCtrlRight st).1.buffer
        = ⟨st.buffer.chars, specWordJumpRight st.buffer.chars st.buffer.pos⟩) ∧
    (handleCtrlLeft claim6St).1.buffer.pos = 9 ∧
    (handleCtrlLeft (handleCtrlLeft claim6St).1).1.buffer.pos = 8 ∧
    (handleCtrlLeft (handleCtrlLeft (handleCtrlLeft claim6St).1).1).1.buffer.pos = 5 :=
  ⟨fun st h => ctrlLeft_buffer_spec st h,
   fun st h hs => ctrlRight_buffer_spec st h hs,
   by decide, by decide, by decide⟩

/-- Witness for C6 at the concrete example state. -/
theorem claim6_word_jumps_witness :
    (handleCtrlLeft claim6St).1.buffer
      = ⟨claim6St.buffer.chars, specWordJumpLeft claim6St.buffer.chars claim6St.buffer.pos⟩ ∧
    (handleCtrlRight claim6St).1.buffer
      = ⟨claim6St.buffer.chars, specWordJumpRight claim6St.buffer.chars claim6St.buffer.pos⟩ :=
  ⟨claim6_word_jumps.1 claim6St (by decide),
   claim6_word_jumps.2.1 claim6St (by decide) (by decide)⟩

/-! ## C7 -/

/-- C7: Ctrl+D on a non-empty buffer is a no-op returning the continue signal;
on an empty buffer it prints the confirmation prompt, leaves the state (and so
the empty buffer) unchanged, and resolves the sub-loop as follows: a plain
'y' or 'Y' terminates, any other plain character reprints the prompt and
continues, a repeated Ctrl+D or Enter terminates. -/
theorem claim7_ctrl_d (st : St) (evs : List Event) :
    (st.buffer.isEmpty = false → handleCtrlD evs st = (st, [], some false)) ∧
    (st.buffer.isEmpty = true →
      (handleCtrlD evs st).1 = st ∧
      (handleCtrlD evs st).2.1.head? = some Effect.writeConfirm ∧
      (∀ c rest,
        evs = Event.key ⟨KeyCode.char c, ⟨false, false, false⟩⟩ :: rest →
        if c = 'y' ∨ c = 'Y'
        then (handleCtrlD evs st).2.2 = some true
        else (handleCtrlD evs st).2.2 = some false ∧
          Effect.printPrompt ∈ (handleCtrlD evs st).2.1) ∧
      (∀ rest, evs = Event.key ⟨KeyCode.char 'd', ⟨true, false, false⟩⟩ :: rest →
        (handleCtrlD evs st).2.2 = some true) ∧
      (∀ m rest, evs = Event.key ⟨KeyCode.enter, m⟩ :: rest →
        (handleCtrlD evs st).2.2 = some true)) := by
  constructor
  · intro hne
    simp [handleCtrlD, hne]
  · intro hemp
    refine ⟨?_, ?_, ?_, ?_, ?_⟩
    · simp only [handleCtrlD, hemp, if_true]
      split
      · rfl
      · rfl
    · simp only [handleCtrlD, hemp, if_true]
      split
      · rfl
      · rfl
    · intro c rest heq
      subst heq
      by_cases hy : c = 'y' ∨ c = 'Y'
      · rw [if_pos hy]
        rcases hy with h | h <;> subst h <;> simp [handleCtrlD, hemp, ctrlDConfirm]
      · rw [if_neg hy]
        push_neg at hy
        obtain ⟨h1, h2⟩ := hy
        simp [handleCtrlD, hemp, ctrlDConfirm, h1, h2]
    · intro rest heq
      subst heq
      simp [handleCtrlD, hemp, ctrlDConfirm]
    · intro m rest heq
      subst heq
      simp [handleCtrlD, hemp, ctrlDConfirm]

/-- Witness for C7: a non-empty buffer continues untouched; on the empty buffer
an 'n' answer continues and a 'y' answer terminates. -/
theorem claim7_ctrl_d_witness :
    handleCtrlD [] { baseSt with buffer := ⟨['x'], 1⟩ }
      = ({ baseSt with buffer := ⟨['x'], 1⟩ }, [], some false) ∧
    (handleCtrlD [Event.key ⟨KeyCode.char 'n', ⟨false, false, false⟩⟩] baseSt).2.2
      = some false ∧
    (handleCtrlD [Event.key ⟨KeyCode.char 'y', ⟨false, false, false⟩⟩] baseSt).2.2
      = some true := by
  refine ⟨(claim7_ctrl_d { baseSt with buffer := ⟨['x'], 1⟩ } []).1 (by decide), ?_, ?_⟩
  · have h := ((claim7_ctrl_d baseSt
      [Event.key ⟨KeyCode.char 'n', ⟨false, false, false⟩⟩]).2 (by decide)).2.2.1 'n' [] rfl
    rw [if_neg (by decide)] at h
    exact h.1
  · have h := ((claim7_ctrl_d baseSt
      [Event.key ⟨KeyCode.char 'y', ⟨false, false, false⟩⟩]).2 (by decide)).2.2.1 'y' [] rfl
    rw [if_pos (by decide)] at h
    exact h

/-! ## C8 -/

/-- Witness state for C8's counterexample: the cursor reports at line end and a
suggestion is active. -/
def claim8St : St :=
  { baseSt with
    cursor := ⟨79, 0, 80, 24⟩
    buffer := ⟨['x'], 1⟩
    racer := some ⟨some ['a', 'b'], false⟩ }

/-- C8 fails on the code for the End key: at line end with an active suggestion,
handle_end_key accepts the suggestion and mutates the buffer, so it is not a
no-op. -/
theorem claim8_counterexample :
    claim8St.cursor.isAtLineEnd = true ∧
    (handleEndKey claim8St).1.buffer.chars = ['x', 'a', 'b'] ∧
    (handleEndKey claim8St).1.buffer.chars ≠ claim8St.buffer.chars := by
  decide

theorem takeSuggestion_of_none {st : St} (h : st.activeSuggestion = none) :
    st.takeSuggestion = (none, st) := by
  unfold St.activeSuggestion at h
  unfold St.takeSuggestion
  cases hr : st.racer with
  | none => rfl
  | some r =>
    rw [hr] at h
    dsimp only at h
    rcases r with ⟨ra, rl⟩
    dsimp only at h
    subst h
    dsimp only
    rw [← hr]

/-- C8 amended: Home at line start is a no-op and idempotent; End at line end
leaves the buffer and cursor (indeed the whole state) unchanged provided no
suggestion is active — with an active suggestion End accepts it instead. -/
theorem claim8_home_end_noop (st : St) :
    (st.cursor.isAtLineStart = true →
      handleHome st = (st, []) ∧
      handleHome (handleHome st).1 = ((handleHome st).1, [])) ∧
    (st.cursor.isAtLineEnd = true → st.activeSuggestion = none →
      handleEndKey st = (st, [])) := by
  constructor
  · intro h
    have h1 : handleHome st = (st, []) := by
      unfold handleHome handleHomeAux
      rw [h]
      simp
    refine ⟨h1, ?_⟩
    rw [h1]
    exact h1
  · intro h hsug
    unfold handleEndKey
    have haux : handleEndAux (st.cursor.width + 1) st = st := by
      unfold handleEndAux
      rw [h]
      simp
    rw [haux]
    dsimp only
    rw [takeSuggestion_of_none hsug]

/-- Witness for C8 at concrete states: Home at line start, End at line end. -/
theorem claim8_home_end_noop_witness :
    (handleHome baseSt = (baseSt, []) ∧
      handleHome (handleHome baseSt).1 = ((handleHome baseSt).1, [])) ∧
    handleEndKey { baseSt with cursor := ⟨79, 0, 80, 24⟩ }
      = ({ baseSt with cursor := ⟨79, 0, 80, 24⟩ }, []) :=
  ⟨(claim8_home_end_noop baseSt).1 (by decide),
   (claim8_home_end_noop { baseSt with cursor := ⟨79, 0, 80, 24⟩ }).2
     (by decide) (by decide)⟩

/-! ## C9 -/

/-- Witness state for C9: a complete one-character buffer. -/
def claim9St : St := { baseSt with buffer := ⟨['x'], 1⟩ }

/-- C9 fails on the code: an evaluation whose rendered output queue is empty is
submitted to the Evaluator, yet the operation counter does not advance and the
input prompt is not refreshed (both live inside the non-empty-output branch). -/
theorem claim9_counterexample :
    Effect.submit ['x'] ∈ (handleEnter (EvalOutcome.ok []) false claim9St).2 ∧
    (handleEnter (EvalOutcome.ok []) false claim9St).1.operationNumber
      = claim9St.operationNumber ∧
    Effect.updateInputPrompt ∉ (handleEnter (EvalOutcome.ok []) false claim9St).2 := by
  decide

/-- C9 amended: every Enter/forced-submit that actually submits clears the
buffer; the operation counter advances by exactly one and the input prompt is
refreshed if and only if the rendered output queue is non-empty — and an
evaluator failure always renders a non-empty queue. -/
theorem claim9_submit_clears_and_counts (o : EvalOutcome) (f : Bool) (st : St)
    (hsubmit : f = true ∨ inputIsCmdOrShell st.buffer.chars = true ∨
      incompleteInput st.buffer.chars = false) :
    Effect.submit st.buffer.chars ∈ (handleEnter o f st).2 ∧
    (handleEnter o f st).1.buffer = ⟨[], 0⟩ ∧
    ((renderedOutput o st.options.errColor).isEmpty = false →
      (handleEnter o f st).1.operationNumber = st.operationNumber + 1 ∧
      Effect.updateInputPrompt ∈ (handleEnter o f st).2) ∧
    ((renderedOutput o st.options.errColor).isEmpty = true →
      (handleEnter o f st).1.operationNumber = st.operationNumber ∧
      Effect.updateInputPrompt ∉ (handleEnter o f st).2) ∧
    (∀ msg, o = EvalOutcome.err msg →
      (renderedOutput o st.options.errColor).isEmpty = false) := by
  have hcond : (!f && !inputIsCmdOrShell st.buffer.chars
      && incompleteInput st.buffer.chars) = false := by
    rcases hsubmit with h | h | h <;> simp [h]
  simp only [handleEnter, St.unlockHistory, Buffer.toStr]
  rw [hcond]
  simp only [Bool.false_eq_true, if_false]
  split
  · dsimp only
    split
    · dsimp only
      rename_i ho
      refine ⟨by simp, rfl, fun _ => ⟨rfl, by simp⟩, fun hout => ?_,
        fun msg hm => by subst hm; rfl⟩
      rw [hout] at ho
      simp at ho
    · dsimp only
      rename_i ho
      refine ⟨by simp, rfl, fun hout => ?_, fun _ => ⟨rfl, by simp⟩,
        fun msg hm => by subst hm; rfl⟩
      rw [hout] at ho
      simp at ho
  · dsimp only
    split
    · dsimp only
      rename_i ho
      refine ⟨by simp, rfl, fun _ => ⟨rfl, by simp⟩, fun hout => ?_,
        fun msg hm => by subst hm; rfl⟩
      rw [hout] at ho
      simp at ho
    · dsimp only
      rename_i ho
      refine ⟨by simp, rfl, fun hout => ?_, fun _ => ⟨rfl, by simp⟩,
        fun msg hm => by subst hm; rfl⟩
      rw [hout] at ho
      simp at ho

/-- Witness for C9: a submit with non-empty output advances the counter; one
with empty output does not. -/
theorem claim9_submit_clears_and_counts_witness :
    (Effect.submit ['x'] ∈
      (handleEnter (EvalOutcome.err ['e']) false claim9St).2 ∧
     (handleEnter (EvalOutcome.err ['e']) false claim9St).1.operationNumber
       = claim9St.operationNumber + 1) ∧
    (handleEnter (EvalOutcome.ok []) false claim9St).1.operationNumber
      = claim9St.operationNumber := by
  have h1 := claim9_submit_clears_and_counts (EvalOutcome.err ['e']) false claim9St
    (Or.inr (Or.inr (by decide)))
  have h2 := claim9_submit_clears_and_counts (EvalOutcome.ok []) false claim9St
    (Or.inr (Or.inr (by decide)))
  exact ⟨⟨h1.1, (h1.2.2.1 (by decide)).1⟩, (h2.2.2.2.1 (by decide)).1⟩

/-! ## C10 -/

/-- C10: a mouse event leaves the whole session state (buffer, cursor,
suggestion state, history, counter) unchanged, performs no collaborator call,
and returns the continue signal. -/
theorem claim10_mouse_noop (o : Oracle) (st : St) :
    handleInputEvent o Event.mouse st = (st, [], some false) := rfl

end IRustSpec
